import Mathlib

/-!
Verification development for the matriisi Matrix client core.

The definitions below are shallow embeddings of the Python source:
identifier parsing (matriisi/identifier.py), the per-room state store with
snapshotting (matriisi/dataclasses/room.py), the membership transition
resolver and gap-recovery backfill loop (matriisi/robotics/state.py), and
the bounded-concurrency event bus (matriisi/event/bus.py, matriisi/utils.py).
Mutable Python dicts are modelled as insertion-ordered association lists;
the aliasing between a live room and its snapshots is modelled with an
explicit heap of references to the per-type inner mappings. Exceptions are
modelled with Except; the potentially diverging backfill loop is modelled
with explicit fuel, where exhausting every fuel bound witnesses divergence.
-/

set_option maxHeartbeats 1000000

namespace Matriisi

/-- Membership states of an m.room.member event
(enum MatrixRoomMemberMembership, httpevents.py). -/
inductive Membership where
  | invite
  | join
  | knock
  | leave
  | ban
deriving DecidableEq

/-- Matrix identifier: a sigil character, a localpart and a domain
(identifier.py, class Identifier). Equality compares all three components,
matching Identifier.__eq__ on two Identifier arguments. -/
structure Identifier where
  sigil : Char
  localpart : String
  domain : String
deriving DecidableEq

/-- Characters admitted by the localpart character class of
IDENTIFIER_REGEXP, which is the ASCII letters and digits plus
period, underscore, equals, hyphen and slash
(the letter z listed again in the class is already a letter). -/
def isLocalpartChar (c : Char) : Bool :=
  c.isAlpha || c.isDigit || c = '.' || c = '_' || c = '=' || c = '-' || c = '/'

/-- Models Identifier.parse on a string argument (identifier.py), at the
character-list level. The first character must be a valid sigil, then the
regex takes the maximal run of localpart characters (1 to 255 of them,
and a colon is never a localpart character so no backtracking succeeds),
then a colon, then a nonempty domain: the dot in the pattern does not match
a newline, so the matched domain stops at the first newline. Failure models
the ValueError (or the IndexError on the empty string) that parse raises. -/
def Identifier.parseChars : List Char → Except String Identifier
  | [] => .error "index error"
  | sigil :: rest =>
    if sigil = '@' || sigil = '!' || sigil = '$' || sigil = '+' || sigil = '#' then
      let lp := rest.takeWhile isLocalpartChar
      if 1 ≤ lp.length ∧ lp.length ≤ 255 then
        match rest.drop lp.length with
        | ':' :: d =>
          let dom := d.takeWhile (fun c => c ≠ '\n')
          if 1 ≤ dom.length then
            .ok ⟨sigil, ⟨lp⟩, ⟨dom⟩⟩
          else
            .error "invalid identifier"
        | _ => .error "invalid identifier"
      else
        .error "invalid identifier"
    else
      .error "invalid sigil"

/-- Models Identifier.parse applied to a string (the state_key of a member
event is always a string in the code paths modelled here). -/
def Identifier.parse (s : String) : Except String Identifier :=
  Identifier.parseChars s.data

/-- Event content, a closed variant over the kinds the claims exercise:
member content carrying a membership, message content carrying the
derived replying-to event id (content.relates_to.replying_to, which is
defined on every content class and is none by default), and an opaque
fallback for every other content class. -/
inductive RContent where
  | member (membership : Membership)
  | message (replyingTo : Option String)
  | other
deriving DecidableEq

/-- Membership carried by a content value, when it is member content.
Reading the membership of non-member content raises AttributeError in
Python; callers model that with an explicit error case. -/
def contentMembership : RContent → Option Membership
  | .member m => some m
  | _ => none

/-- Replying-to event id of a content value
(content.relates_to.replying_to in structs.py, none for
non-message contents whose relates_to is the empty default). -/
def contentReplyingTo : RContent → Option String
  | .message r => r
  | _ => none

/-- A room event as delivered by the homeserver
(MatrixRoomBaseEvent and subclasses, httpevents.py). state_key is some
for state events (MatrixRoomBaseStateEvent) and none for plain timeline
events, which have no state_key attribute. -/
structure REvt where
  type : String
  sender : Identifier
  state_key : Option String
  event_id : String
  content : RContent
deriving DecidableEq

/-- Semantic events produced by the state reconciler
(matriisi/robotics/event). The room snapshot argument that every
constructor in the source receives, and passes through unchanged, is
elided; the identifier and flag payloads are kept. -/
inductive SemEvent where
  | meJoined (roomId : Identifier)
  | memberJoined (memberId : Identifier) (wasInvited : Bool)
  | memberInviteRejected (invitedId : Identifier)
  | memberInviteRevoked (invitedId : Identifier) (revokerId : Identifier)
  | memberLeft (memberId : Identifier)
  | memberKicked (kickedId : Identifier) (kickerId : Identifier)
  | memberInvited (inviteeId : Identifier) (inviterId : Identifier)
  | memberUnbanned (unbannedId : Identifier) (unbannerId : Identifier)
  | memberBanned (bannedId : Identifier) (bannerId : Identifier) (wasInRoom : Bool)
  | message (eventId : String)
  | messageReply (eventId : String)
deriving DecidableEq

/-- Python exceptions that the modelled code can raise, plus an explicit
marker for the backfill loop running out of fuel (modelling divergence). -/
inductive ProcErr where
  | notImplemented
  | valueError
  | attrError
  | backfillDiverged
deriving DecidableEq

/-- The membership transition resolver: the branch chain of
MatrixState._handle_m_room_member (state.py lines 110 to 180) as a pure
function of the previous membership (none when the before-room has no
member event for the state key, which the code folds to LEAVE), the new
membership, the state_key string of the affected member and the acting
sender. Matched transitions return their semantic event; unmatched
unequal pairs fall through the warning logs to an implicit return of
none; equal pairs reach the else branch, where join to join raises
NotImplementedError and every other equal pair falls through to none.
Identifier.parse failures on the state key propagate as ValueError. -/
def resolveTransition (previous : Option Membership) (nm : Membership)
    (state_key : String) (sender : Identifier) : Except ProcErr (Option SemEvent) :=
  let pm := match previous with
    | none => Membership.leave
    | some m => m
  if pm ≠ nm then
    if pm = Membership.invite ∧ nm = Membership.join then
      .ok (some (.memberJoined sender true))
    else if pm = Membership.invite ∧ nm = Membership.leave then
      match Identifier.parse state_key with
      | .error _ => .error .valueError
      | .ok rejected_id =>
        if sender = rejected_id then
          .ok (some (.memberInviteRejected sender))
        else
          .ok (some (.memberInviteRevoked rejected_id sender))
    else if pm = Membership.join ∧ nm = Membership.leave then
      match Identifier.parse state_key with
      | .error _ => .error .valueError
      | .ok member_id =>
        if sender = member_id then
          .ok (some (.memberLeft member_id))
        else
          .ok (some (.memberKicked member_id sender))
    else if pm = Membership.leave ∧ nm = Membership.invite then
      match Identifier.parse state_key with
      | .error _ => .error .valueError
      | .ok member_id => .ok (some (.memberInvited member_id sender))
    else if pm = Membership.leave ∧ nm = Membership.join then
      match Identifier.parse state_key with
      | .error _ => .error .valueError
      | .ok member_id => .ok (some (.memberJoined member_id false))
    else if pm = Membership.ban ∧ nm = Membership.leave then
      match Identifier.parse state_key with
      | .error _ => .error .valueError
      | .ok member_id => .ok (some (.memberUnbanned member_id sender))
    else if nm = Membership.ban then
      match Identifier.parse state_key with
      | .error _ => .error .valueError
      | .ok banee => .ok (some (.memberBanned banee sender (pm == Membership.join)))
    else
      .ok none
  else
    if pm = Membership.join ∧ nm = Membership.join then
      .error .notImplemented
    else
      .ok none

/-- The transition table of spec section 4.4, as a predicate on the
(previous-or-none, new) membership pair; none behaves as leave, and the
any-to-ban row covers transitions into ban from a different state. -/
def listedInTable (previous : Option Membership) (nm : Membership) : Bool :=
  let pm := match previous with
    | none => Membership.leave
    | some m => m
  (pm = Membership.leave ∧ nm = Membership.join) ∨
  (pm = Membership.invite ∧ nm = Membership.join) ∨
  (pm = Membership.invite ∧ nm = Membership.leave) ∨
  (pm = Membership.join ∧ nm = Membership.leave) ∨
  (pm = Membership.leave ∧ nm = Membership.invite) ∨
  (pm = Membership.ban ∧ nm = Membership.leave) ∨
  (pm ≠ Membership.ban ∧ nm = Membership.ban)

/-- A concrete identifier used by witnesses and counterexamples. -/
def aliceId : Identifier := ⟨'@', "alice", "example.org"⟩

/-- A second concrete identifier used by witnesses. -/
def bobId : Identifier := ⟨'@', "bob", "example.org"⟩

/-! Room state store (matriisi/dataclasses/room.py). The outer defaultdict
maps event type strings to references into a heap of inner dicts; inner
dicts map state keys to events. Dicts are insertion-ordered association
lists whose keys are unique in every reachable state. -/

/-- Heap reference naming one inner dict object. -/
abbrev Ref := Nat

/-- Inner state mapping, from state_key to the current event of that key. -/
abbrev SubDict := List (String × REvt)

/-- Models dict.get on an inner dict. -/
def dictGet (d : SubDict) (k : String) : Option REvt :=
  (d.find? (fun p => p.1 == k)).map Prod.snd

/-- Models dict item assignment: replace the entry of an existing key in
place, otherwise append the new entry at the end (insertion order). -/
def dictInsert (d : SubDict) (k : String) (v : REvt) : SubDict :=
  match d with
  | [] => [(k, v)]
  | p :: rest => if p.1 == k then (k, v) :: rest else p :: dictInsert rest k v

/-- Models dict.pop(key, None): the key is removed if present. Keys of a
dict are unique, so removal is modelled by filtering the key out. -/
def dictPop (d : SubDict) (k : String) : SubDict :=
  d.filter (fun p => p.1 != k)

/-- Heap of inner dict objects, with a bump allocator for fresh
references. -/
structure Heap where
  next : Ref
  store : Ref → SubDict

/-- Allocates a fresh inner dict object holding d. -/
def Heap.alloc (h : Heap) (d : SubDict) : Heap × Ref :=
  (⟨h.next + 1, fun r => if r = h.next then d else h.store r⟩, h.next)

/-- Mutates the inner dict object named by r in place. -/
def Heap.write (h : Heap) (r : Ref) (d : SubDict) : Heap :=
  ⟨h.next, fun r2 => if r2 = r then d else h.store r2⟩

/-- A Room object (room.py, class Room): the _state_events outer mapping
from event type to the reference of its inner dict, plus
_last_known_event_id. The client and identifier fields play no part in
the modelled behaviour. -/
structure RoomObj where
  outer : List (String × Ref)
  lastKnownEventId : String

/-- Looks a type up in the outer mapping. -/
def lookupRef (l : List (String × Ref)) (t : String) : Option Ref :=
  (l.find? (fun p => p.1 == t)).map Prod.snd

/-- The inner dict a heap and outer mapping present for a type; a type
absent from the outer mapping presents the empty dict, which is also what
the defaultdict in the source would create on access. -/
def viewIn (h : Heap) (l : List (String × Ref)) (t : String) : SubDict :=
  match lookupRef l t with
  | some r => h.store r
  | none => []

/-- The state of one event type as seen through a room. -/
def stateView (h : Heap) (room : RoomObj) (t : String) : SubDict :=
  viewIn h room.outer t

/-- Models Room.find_event(event_type, state_key) for a present state key
(room.py lines 133 to 149): index the outer defaultdict by type, then get
the state key. The defaultdict inserting an empty inner dict on a miss is
observationally inert and elided; the truthiness check on the found event
always passes for an event object. -/
def findEvent (h : Heap) (room : RoomObj) (t : String) (sk : String) : Option REvt :=
  dictGet (stateView h room t) sk

/-- Models the defaultdict access self._state_events[event.type] in a
mutating position: returns the existing inner dict reference, or
allocates an empty inner dict and registers it under the type. -/
def getOrCreateSub (h : Heap) (room : RoomObj) (t : String) : Heap × RoomObj × Ref :=
  match lookupRef room.outer t with
  | some r => (h, room, r)
  | none =>
    let p := h.alloc []
    (p.1, { room with outer := room.outer ++ [(t, p.2)] }, p.2)

/-- Models Room._update_state (room.py lines 182 to 201): record the last
known event id, skip events without a state_key, then either pop the
state key (member event whose membership is LEAVE) or store the event
under its (type, state_key). Reading the membership of non-member content
under the member type would raise AttributeError in Python and is not
modelled; no modelled input stores such content. -/
def updateState (h : Heap) (room : RoomObj) (event : REvt) : Heap × RoomObj :=
  let room1 : RoomObj := { room with lastKnownEventId := event.event_id }
  match event.state_key with
  | none => (h, room1)
  | some sk =>
    let q := getOrCreateSub h room1 event.type
    let h1 := q.1
    let room2 := q.2.1
    let r := q.2.2
    let subdict := h1.store r
    if event.type = "m.room.member" ∧ contentMembership event.content = some Membership.leave then
      (h1.write r (dictPop subdict sk), room2)
    else
      (h1.write r (dictInsert subdict sk event), room2)

/-- Copying loop of Room.snapshot: for every type of the outer mapping,
allocate a fresh inner dict holding a copy of the current one. -/
def snapshotLoop (h : Heap) : List (String × Ref) → Heap × List (String × Ref)
  | [] => (h, [])
  | (t, r) :: rest =>
    let p := h.alloc (h.store r)
    let q := snapshotLoop p.1 rest
    (q.1, (t, p.2) :: q.2)

/-- Models Room.snapshot (room.py lines 203 to 213): a fresh Room whose
outer mapping holds fresh copies of every inner dict; the fresh Room
starts with the empty _last_known_event_id of Room.__init__. -/
def snapshotRoom (h : Heap) (room : RoomObj) : Heap × RoomObj :=
  let p := snapshotLoop h room.outer
  (p.1, { outer := p.2, lastKnownEventId := "" })

/-- Every inner dict reference of the room is a live allocation of the
heap. Holds in every reachable state. -/
def roomRefsBounded (h : Heap) (room : RoomObj) : Prop :=
  ∀ p ∈ room.outer, p.2 < h.next

/-- Models Room.member (room.py lines 215 to 231): look the member event
up by state key; absent, or present with a membership other than JOIN,
gives none; membership JOIN gives the member (modelled by its event).
Member content is read through contentMembership, with the AttributeError
of non-member content made explicit. -/
def memberLookup (h : Heap) (room : RoomObj) (id : String) : Except ProcErr (Option REvt) :=
  match findEvent h room "m.room.member" id with
  | none => .ok none
  | some e =>
    match contentMembership e.content with
    | none => .error .attrError
    | some m => if m ≠ Membership.join then .ok none else .ok (some e)

/-- Iteration of the Room.members generator body over the member inner
dict (room.py lines 233 to 244): skip entries whose membership is not
JOIN, yield the rest in order. -/
def joinedMembersList : SubDict → Except ProcErr (List REvt)
  | [] => .ok []
  | p :: rest =>
    match contentMembership p.2.content with
    | none => .error .attrError
    | some m =>
      if m ≠ Membership.join then joinedMembersList rest
      else
        match joinedMembersList rest with
        | .error err => .error err
        | .ok l => .ok (p.2 :: l)

/-- Models the Room.members generator, run to a list. -/
def joinedMembers (h : Heap) (room : RoomObj) : Except ProcErr (List REvt) :=
  joinedMembersList (stateView h room "m.room.member")

/-- A concrete heap with one allocated, empty inner dict, used by
witnesses. -/
def heap0 : Heap := ⟨1, fun _ => []⟩

/-- A concrete room whose member type maps to reference 0, used by
witnesses. -/
def room0 : RoomObj := ⟨[("m.room.member", 0)], ""⟩

/-- A concrete join member event for alice, used by witnesses. -/
def joinEvtA : REvt :=
  ⟨"m.room.member", aliceId, some "@alice:example.org", "$j1", .member Membership.join⟩

/-- A concrete leave member event for alice, used by witnesses. -/
def leaveEvtA : REvt :=
  ⟨"m.room.member", aliceId, some "@alice:example.org", "$l1", .member Membership.leave⟩

/-- A concrete ban member event for alice, used by witnesses. -/
def banEvtA : REvt :=
  ⟨"m.room.member", bobId, some "@alice:example.org", "$b1", .member Membership.ban⟩

/-- A concrete empty heap, used by witnesses. -/
def emptyHeap : Heap := ⟨0, fun _ => []⟩

/-- A concrete empty room, used by witnesses. -/
def emptyRoom : RoomObj := ⟨[], ""⟩

/-- A concrete heap whose one inner dict holds a join member event for
alice, used by witnesses. -/
def heapJ : Heap := ⟨1, fun _ => [("@alice:example.org", joinEvtA)]⟩

/-! Gap recovery (MatrixState._backfill_events, state.py lines 182 to
216). -/

/-- One page returned by the getEvents transport call
(MatrixRoomMessages, structs.py): the chunk of events, newest first, and
the token of the next older page, absent when the end of the timeline was
reached. The token type is abstract: strings on the wire, page indices in
the synthetic history of the tests. -/
structure MessagesPage (τ : Type) where
  chunk : List REvt
  endToken : Option τ

/-- The inner for-loop of the backfill: scan a chunk newest to oldest;
an event matching the last known id returns the accumulated deque, any
other event is prepended to it (appendleft). -/
def scanChunk (last : String) : List REvt → List REvt → Sum (List REvt) (List REvt)
  | [], acc => .inr acc
  | e :: rest, acc =>
    if e.event_id = last then .inl acc
    else scanChunk last rest (e :: acc)

/-- Models MatrixState._backfill_events, instrumented with a counter of
getEvents calls and explicit fuel: one fuel unit is one iteration of the
unbounded while loop, and a none result means the loop was still running
when every fuel bound ran out, which witnesses divergence. Faithful to
the source, a page without an end token leaves the token variable
unchanged and re-enters the loop after the warning log; it does not
return. -/
def backfillLoop {τ : Type} (getEvents : τ → MessagesPage τ) (last : String) :
    Nat → τ → List REvt → Nat → Option (List REvt × Nat)
  | 0, _, _, _ => none
  | fuel + 1, token, acc, count =>
    let page := getEvents token
    match scanChunk last page.chunk acc with
    | .inl evts => some (evts, count + 1)
    | .inr acc2 =>
      match page.endToken with
      | none => backfillLoop getEvents last fuel token acc2 (count + 1)
      | some t2 => backfillLoop getEvents last fuel t2 acc2 (count + 1)

/-- Runs the backfill from a start token with the empty deque, as
_backfill_events does from prev_batch. -/
def backfillRun {τ : Type} (getEvents : τ → MessagesPage τ) (last : String)
    (fuel : Nat) (start : τ) : Option (List REvt × Nat) :=
  backfillLoop getEvents last fuel start [] 0

/-- The synthetic paginated history of the gap recovery property: a
newest-first event list served in pages of 50, tokens being page
indices, with the end token absent once the list is exhausted. -/
def synthPages (evs : List REvt) : Nat → MessagesPage Nat :=
  fun token =>
    ⟨(evs.drop (50 * token)).take 50,
     if 50 * (token + 1) < evs.length then some (token + 1) else none⟩

/-- A history that is already exhausted: every page is empty with no end
token, the shape a server presents at the start of a timeline. -/
def exhaustedHistory : Unit → MessagesPage Unit := fun _ => ⟨[], none⟩

/-- A concrete timeline event whose id is the last known id, used by the
gap recovery counterexample. -/
def targetEvt : REvt := ⟨"m.room.message", aliceId, none, "$known", .other⟩

/-- A concrete timeline event with a different id, used by witnesses. -/
def otherEvt : REvt := ⟨"m.room.message", aliceId, none, "$other", .other⟩

/-- A concrete synthetic history: 51 newer events, then the target. -/
def historyC4 : List REvt := List.replicate 51 otherEvt ++ [targetEvt]

/-! Event bus (matriisi/event/bus.py, matriisi/utils.py). -/

/-- An event as the dispatch loop sees it: its runtime type tag (the key
of the typed handler registry) and its insignificant flag. -/
structure BusEvent where
  tag : String
  insignificant : Bool

/-- Outcome of one iteration of EventBus._run_loop for one received
event: dropped without any handler invocation, or dispatched with the
list of handler invocations started (each start awaits a limiter slot
before the handler body runs). -/
inductive DispatchOutcome (H : Type) where
  | dropped
  | dispatched (invocations : List H)

/-- Models one iteration of EventBus._run_loop (bus.py lines 49 to 64)
given the limiter free-slot count at the insignificance check: an
insignificant event with no free slot is dropped entirely; otherwise the
loop starts one bounded task per wildcard handler, then one per handler
registered for the exact event tag, awaiting each start. -/
def runLoopIteration {H : Type} (available : Nat) (anyHandlers : List H)
    (typedHandlers : String → List H) (e : BusEvent) : DispatchOutcome H :=
  if e.insignificant = true ∧ available ≤ 0 then .dropped
  else .dispatched (anyHandlers ++ typedHandlers e.tag)

/-- Models EventBus._run_event_safely (bus.py lines 33 to 42): run the
handler on the event; a raised exception is caught and logged (the
returned option) and never escapes the wrapper. -/
def run_event_safely (cb : BusEvent → Except String Unit) (event : BusEvent) :
    Except String (Option String) :=
  match cb event with
  | .ok _ => .ok none
  | .error ex => .ok (some ex)

/-- One isolated invocation per handler of a dispatched event. -/
def dispatchHandlers (cbs : List (BusEvent → Except String Unit)) (event : BusEvent) :
    List (Except String (Option String)) :=
  cbs.map (fun cb => run_event_safely cb event)

/-! Sync coordination (MatrixState, state.py). -/

/-- Per-room delta of one sync response (MatrixJoinedRoom with its
MatrixTimeline, structs.py): new state events, new timeline events, the
truncation flag and the continuation token for backfilling. -/
structure JoinedRoomData where
  room_id : Identifier
  state : List REvt
  timelineEvents : List REvt
  limited : Bool
  prev_batch : String

/-- A sync response: the next cursor and the joined-room deltas in
iteration order (MatrixSync, structs.py). -/
structure SyncData where
  next_batch : String
  joined : List JoinedRoomData

/-- The global client state (MatrixState, state.py): the room registry,
the shared heap behind every room, the bounded cache of recent events and
the sync cursor. -/
structure ClientState where
  rooms : List (Identifier × RoomObj)
  heap : Heap
  cachedEvents : List REvt
  nextBatch : Option String

/-- Lookup in the IdentifierDict room registry. -/
def lookupRoom (l : List (Identifier × RoomObj)) (id : Identifier) : Option RoomObj :=
  (l.find? (fun p => p.1 == id)).map Prod.snd

/-- Item assignment in the IdentifierDict room registry: replace the
entry of an existing key in place, else append. -/
def insertRoom (l : List (Identifier × RoomObj)) (id : Identifier) (room : RoomObj) :
    List (Identifier × RoomObj) :=
  match l with
  | [] => [(id, room)]
  | p :: rest => if p.1 == id then (id, room) :: rest else p :: insertRoom rest id room

/-- Appending to the cached-event deque of maximum length 1000: the
oldest entries fall off the front once the bound is exceeded. -/
def pushCached (cached : List REvt) (e : REvt) : List REvt :=
  let c := cached ++ [e]
  if 1000 < c.length then c.drop (c.length - 1000) else c

/-- Models MatrixState._handle_m_room_message (state.py lines 82 to 96):
an event whose content relates to a replied-to event id produces a reply
event, any other message produces a plain message event; the room
snapshot and message wrapper carry no further decision. -/
def handle_m_room_message (event : REvt) : Option SemEvent :=
  match contentReplyingTo event.content with
  | some _ => some (.messageReply event.event_id)
  | none => some (.message event.event_id)

/-- Models MatrixState._handle_m_room_member (state.py lines 98 to 180):
find the previous member event for the state key in the before-room,
read the previous membership (LEAVE when there is no previous event) and
the new membership, and resolve the transition. Membership reads of
non-member content surface the AttributeError explicitly. -/
def handle_m_room_member (h : Heap) (before : RoomObj) (event : REvt) :
    Except ProcErr (Option SemEvent) :=
  match event.state_key with
  | none => .error .attrError
  | some sk =>
    match findEvent h before "m.room.member" sk with
    | none =>
      match contentMembership event.content with
      | none => .error .attrError
      | some nm => resolveTransition none nm sk event.sender
    | some pe =>
      match contentMembership pe.content with
      | none => .error .attrError
      | some pm =>
        match contentMembership event.content with
        | none => .error .attrError
        | some nm => resolveTransition (some pm) nm sk event.sender

/-- One iteration of the replay loop of _process_joined_room (state.py
lines 254 to 271): cache the event, snapshot the room, apply state
events, and when the room was known before this pass, look the handler
up by the event type (dots to underscores; only the message and member
handlers exist) and run it on (before, snapshot, event). -/
def replayEvent (known : Bool) (h : Heap) (room : RoomObj) (cached : List REvt) (evt : REvt) :
    Except ProcErr (Heap × RoomObj × List REvt × Option SemEvent) :=
  let cached2 := pushCached cached evt
  let s1 := snapshotRoom h room
  let h1 := s1.1
  let before := s1.2
  let hr := if evt.state_key.isSome then updateState h1 room evt else (h1, room)
  let h2 := hr.1
  let room2 := hr.2
  if known then
    match evt.type with
    | "m.room.message" =>
      let s2 := snapshotRoom h2 room2
      .ok (s2.1, room2, cached2, handle_m_room_message evt)
    | "m.room.member" =>
      let s2 := snapshotRoom h2 room2
      match handle_m_room_member s2.1 before evt with
      | .error err => .error err
      | .ok r => .ok (s2.1, room2, cached2, r)
    | _ => .ok (h2, room2, cached2, none)
  else
    .ok (h2, room2, cached2, none)

/-- The replay loop over the combined event sequence, collecting the
semantic events the handlers produce in delivery order. -/
def replayEvents (known : Bool) :
    List REvt → Heap → RoomObj → List REvt → List SemEvent →
    Except ProcErr (Heap × RoomObj × List REvt × List SemEvent)
  | [], h, room, cached, events => .ok (h, room, cached, events)
  | evt :: rest, h, room, cached, events =>
    match replayEvent known h room cached evt with
    | .error err => .error err
    | .ok (h2, room2, cached2, r) =>
      replayEvents known rest h2 room2 cached2
        (match r with
          | some ev => events ++ [ev]
          | none => events)

/-- Models MatrixState._process_joined_room (state.py lines 218 to 273):
a known room backfills first when the timeline is truncated and
backfilling is enabled, prepending the recovered events; an unknown room
is created, registered and seeded with the me-joined event, and no
handler runs for it in this pass. The room mutated during replay is the
object registered in the room table. -/
def processJoinedRoom (getEvents : String → MessagesPage String) (fuel : Nat)
    (st : ClientState) (rd : JoinedRoomData) (dont_backfill : Bool) :
    Except ProcErr (ClientState × List SemEvent) :=
  let matrix_events := rd.state ++ rd.timelineEvents
  match lookupRoom st.rooms rd.room_id with
  | some room =>
    let bf :=
      if ¬ dont_backfill ∧ rd.limited = true then
        match backfillRun getEvents room.lastKnownEventId fuel rd.prev_batch with
        | none => none
        | some (evts, _) => some (evts ++ matrix_events)
      else some matrix_events
    match bf with
    | none => .error .backfillDiverged
    | some evts2 =>
      match replayEvents true evts2 st.heap room st.cachedEvents [] with
      | .error err => .error err
      | .ok (h2, room2, cached2, events) =>
        .ok (⟨insertRoom st.rooms rd.room_id room2, h2, cached2, st.nextBatch⟩, events)
  | none =>
    let room : RoomObj := ⟨[], ""⟩
    let rooms2 := insertRoom st.rooms rd.room_id room
    match replayEvents false matrix_events st.heap room st.cachedEvents
        [SemEvent.meJoined rd.room_id] with
    | .error err => .error err
    | .ok (h2, room2, cached2, events) =>
      .ok (⟨insertRoom rooms2 rd.room_id room2, h2, cached2, st.nextBatch⟩, events)

/-- The per-room loop of MatrixState.sync, accumulating every produced
semantic event in batch order. -/
def processRooms (getEvents : String → MessagesPage String) (fuel : Nat) :
    ClientState → List JoinedRoomData → Bool →
    Except ProcErr (ClientState × List SemEvent)
  | st, [], _ => .ok (st, [])
  | st, rd :: rest, dont_backfill =>
    match processJoinedRoom getEvents fuel st rd dont_backfill with
    | .error err => .error err
    | .ok (st2, evs) =>
      match processRooms getEvents fuel st2 rest dont_backfill with
      | .error err => .error err
      | .ok (st3, evs2) => .ok (st3, evs ++ evs2)

/-- Models MatrixState.sync (state.py lines 275 to 294): advance the
cursor first, process every joined room with backfilling disabled on the
initial batch, then either drop every collected event on the floor
(initial batch) or send each one over the event channel; the returned
list is what was sent. -/
def syncState (getEvents : String → MessagesPage String) (fuel : Nat) (st : ClientState)
    (sd : SyncData) (initial_batch : Bool) : Except ProcErr (ClientState × List SemEvent) :=
  match processRooms getEvents fuel { st with nextBatch := some sd.next_batch }
      sd.joined initial_batch with
  | .error err => .error err
  | .ok (st2, events) =>
    if initial_batch then .ok (st2, [])
    else .ok (st2, events)

/-- C2 counterexample: the pair (join, join) is not listed in the
transition table, yet the resolver raises NotImplementedError on it
(state.py line 172) instead of logging and returning no event, refuting
the claim that unlisted pairs never raise. -/
theorem c2_counterexample :
    listedInTable (some Membership.join) Membership.join = false ∧
    resolveTransition (some Membership.join) Membership.join "@alice:example.org" aliceId
      = .error .notImplemented :=
  ⟨rfl, rfl⟩

/-- C2 amended: for every (previous, new) membership pair not listed in the
transition table, except the join to join pair, the resolver returns no
semantic event and raises no exception; the join to join pair instead
raises NotImplementedError. -/
theorem c2_unlisted_no_event (previous : Option Membership) (nm : Membership)
    (sk : String) (sender : Identifier)
    (hlisted : listedInTable previous nm = false)
    (hjj : ¬(previous = some Membership.join ∧ nm = Membership.join)) :
    resolveTransition previous nm sk sender = .ok none := by
  cases previous with
  | none => cases nm <;> first | rfl | exact absurd hlisted (by decide)
  | some pm =>
    cases pm <;> cases nm <;>
      first
        | rfl
        | exact absurd hlisted (by decide)
        | exact absurd ⟨rfl, rfl⟩ hjj

/-- C2 witness: the unlisted pair (invite, knock) produces no event and no
exception. -/
theorem c2_unlisted_no_event_witness :
    listedInTable (some Membership.invite) Membership.knock = false ∧
    resolveTransition (some Membership.invite) Membership.knock "@alice:example.org" bobId
      = .ok none :=
  ⟨rfl, c2_unlisted_no_event (some Membership.invite) Membership.knock
    "@alice:example.org" bobId rfl (by decide)⟩

/-- C3: every pair listed in the transition table resolves to exactly the
semantic event the table specifies, with the specified flags: none or
leave to join gives memberJoined with wasInvited false; invite to join
gives memberJoined with wasInvited true; invite to leave gives
memberInviteRejected when the sender is the affected identifier and
memberInviteRevoked otherwise; join to leave gives memberLeft when the
sender is the affected identifier and memberKicked otherwise; none or
leave to invite gives memberInvited; ban to leave gives memberUnbanned;
any other membership to ban gives memberBanned with wasInRoom true
exactly when the previous membership was join. The affected identifier is
the parse of the state key. -/
theorem c3_transition_table (sk : String) (sender affected : Identifier)
    (hparse : Identifier.parse sk = .ok affected) :
    resolveTransition none Membership.join sk sender
      = .ok (some (.memberJoined affected false)) ∧
    resolveTransition (some Membership.leave) Membership.join sk sender
      = .ok (some (.memberJoined affected false)) ∧
    resolveTransition (some Membership.invite) Membership.join sk sender
      = .ok (some (.memberJoined sender true)) ∧
    (sender = affected →
      resolveTransition (some Membership.invite) Membership.leave sk sender
        = .ok (some (.memberInviteRejected sender))) ∧
    (sender ≠ affected →
      resolveTransition (some Membership.invite) Membership.leave sk sender
        = .ok (some (.memberInviteRevoked affected sender))) ∧
    (sender = affected →
      resolveTransition (some Membership.join) Membership.leave sk sender
        = .ok (some (.memberLeft affected))) ∧
    (sender ≠ affected →
      resolveTransition (some Membership.join) Membership.leave sk sender
        = .ok (some (.memberKicked affected sender))) ∧
    resolveTransition none Membership.invite sk sender
      = .ok (some (.memberInvited affected sender)) ∧
    resolveTransition (some Membership.leave) Membership.invite sk sender
      = .ok (some (.memberInvited affected sender)) ∧
    resolveTransition (some Membership.ban) Membership.leave sk sender
      = .ok (some (.memberUnbanned affected sender)) ∧
    (∀ pm : Membership, pm ≠ Membership.ban →
      resolveTransition (some pm) Membership.ban sk sender
        = .ok (some (.memberBanned affected sender (pm == Membership.join)))) ∧
    resolveTransition none Membership.ban sk sender
      = .ok (some (.memberBanned affected sender false)) := by
  refine ⟨?_, ?_, ?_, ?_, ?_, ?_, ?_, ?_, ?_, ?_, ?_, ?_⟩
  · simp [resolveTransition, hparse]
  · simp [resolveTransition, hparse]
  · simp [resolveTransition]
  · intro h; simp [resolveTransition, hparse, h]
  · intro h; simp [resolveTransition, hparse, h]
  · intro h; simp [resolveTransition, hparse, h]
  · intro h; simp [resolveTransition, hparse, h]
  · simp [resolveTransition, hparse]
  · simp [resolveTransition, hparse]
  · simp [resolveTransition, hparse]
  · intro pm hpm; cases pm <;> simp_all [resolveTransition, hparse]
  · simp [resolveTransition, hparse]

/-- C3 witness: with a parseable state key for alice and sender bob, the
join to leave row resolves to memberKicked. -/
theorem c3_transition_table_witness :
    Identifier.parse "@alice:example.org" = Except.ok aliceId ∧
    resolveTransition (some Membership.join) Membership.leave "@alice:example.org" bobId
      = .ok (some (.memberKicked aliceId bobId)) :=
  ⟨rfl,
    (c3_transition_table "@alice:example.org" bobId aliceId rfl).2.2.2.2.2.2.1 (by decide)⟩

/-- Popping a key removes its entry. -/
theorem dictGet_dictPop (d : SubDict) (k : String) : dictGet (dictPop d k) k = none := by
  simp only [dictGet, dictPop]
  rw [List.find?_eq_none.mpr]
  · rfl
  · intro p hp
    have h2 := (List.mem_filter.mp hp).2
    simpa using h2

/-- Storing under a key makes the stored event current for that key. -/
theorem dictGet_dictInsert (d : SubDict) (k : String) (v : REvt) :
    dictGet (dictInsert d k v) k = some v := by
  induction d with
  | nil => simp [dictGet, dictInsert]
  | cons p rest ih =>
    by_cases h : p.1 = k
    · simp [dictGet, dictInsert, h]
    · simp only [dictGet, dictInsert] at ih ⊢
      rw [if_neg (by simpa using h), List.find?_cons_of_neg _ (by simpa using h)]
      exact ih

/-- A found entry of dictGet belongs to the dict. -/
theorem dictGet_mem (d : SubDict) (k : String) (e : REvt) (h : dictGet d k = some e) :
    ∃ p ∈ d, p.2 = e := by
  simp only [dictGet] at h
  cases hf : d.find? (fun p => p.1 == k) with
  | none => rw [hf] at h; cases h
  | some p =>
    rw [hf] at h
    exact ⟨p, List.mem_of_find?_eq_some hf, by simpa using h⟩

/-- A found reference of lookupRef belongs to the outer mapping. -/
theorem lookupRef_mem (l : List (String × Ref)) (t : String) (r : Ref)
    (h : lookupRef l t = some r) : ∃ p ∈ l, p.2 = r := by
  simp only [lookupRef] at h
  cases hf : l.find? (fun p => p.1 == t) with
  | none => rw [hf] at h; cases h
  | some p =>
    rw [hf] at h
    exact ⟨p, List.mem_of_find?_eq_some hf, by simpa using h⟩

/-- Looking up a type found at the head of the outer mapping. -/
theorem lookupRef_cons_pos (t0 : String) (r0 : Ref) (l : List (String × Ref)) (t : String)
    (ht : t0 = t) : lookupRef ((t0, r0) :: l) t = some r0 := by
  unfold lookupRef
  rw [List.find?_cons_of_pos]
  · rfl
  · simp [ht]

/-- Looking up a type skips a head entry of a different type. -/
theorem lookupRef_cons_neg (t0 : String) (r0 : Ref) (l : List (String × Ref)) (t : String)
    (ht : ¬ t0 = t) : lookupRef ((t0, r0) :: l) t = lookupRef l t := by
  unfold lookupRef
  rw [List.find?_cons_of_neg]
  simp [ht]

/-- Appending a binding for a type that is absent makes it found. -/
theorem lookupRef_append_right (l : List (String × Ref)) (t : String) (r : Ref)
    (h : lookupRef l t = none) : lookupRef (l ++ [(t, r)]) t = some r := by
  induction l with
  | nil => exact lookupRef_cons_pos t r [] t rfl
  | cons p rest ih =>
    obtain ⟨t0, r0⟩ := p
    by_cases hp : t0 = t
    · rw [lookupRef_cons_pos t0 r0 rest t hp] at h
      cases h
    · rw [lookupRef_cons_neg t0 r0 rest t hp] at h
      rw [List.cons_append, lookupRef_cons_neg t0 r0 _ t hp]
      exact ih h

/-- Viewing a type found at the head of the outer mapping. -/
theorem viewIn_cons_pos (h : Heap) (t0 : String) (r0 : Ref) (l : List (String × Ref))
    (t : String) (ht : t0 = t) : viewIn h ((t0, r0) :: l) t = h.store r0 := by
  simp only [viewIn, lookupRef_cons_pos t0 r0 l t ht]

/-- Viewing a type skips a head entry of a different type. -/
theorem viewIn_cons_neg (h : Heap) (t0 : String) (r0 : Ref) (l : List (String × Ref))
    (t : String) (ht : ¬ t0 = t) : viewIn h ((t0, r0) :: l) t = viewIn h l t := by
  simp only [viewIn, lookupRef_cons_neg t0 r0 l t ht]

/-- Writing a reference updates it. -/
theorem Heap.write_store_self (h : Heap) (r : Ref) (d : SubDict) :
    (h.write r d).store r = d := by
  simp [Heap.write]

/-- Writing a reference leaves every other reference unchanged. -/
theorem Heap.write_store_ne (h : Heap) (r : Ref) (d : SubDict) (r2 : Ref) (hne : r2 ≠ r) :
    (h.write r d).store r2 = h.store r2 := by
  simp [Heap.write, hne]

/-- Allocation does not change the content of other references. -/
theorem Heap.alloc_fst_store_ne (h : Heap) (d : SubDict) (r : Ref) (hr : r ≠ h.next) :
    (h.alloc d).1.store r = h.store r := by
  simp [Heap.alloc, hr]

/-- An allocated reference holds the allocated content. -/
theorem Heap.alloc_fst_store_self (h : Heap) (d : SubDict) :
    (h.alloc d).1.store (h.alloc d).2 = d := by
  simp [Heap.alloc]

/-- The snapshot loop only grows the allocation frontier. -/
theorem snapshotLoop_fst_next_le (l : List (String × Ref)) (h : Heap) :
    h.next ≤ (snapshotLoop h l).1.next := by
  induction l generalizing h with
  | nil => exact le_refl _
  | cons p rest ih =>
    obtain ⟨t, r⟩ := p
    simp only [snapshotLoop]
    exact le_trans (Nat.le_succ _) (ih (h.alloc (h.store r)).1)

/-- The snapshot loop leaves every previously allocated reference
unchanged. -/
theorem snapshotLoop_fst_store_lt (l : List (String × Ref)) (h : Heap) (r : Ref)
    (hr : r < h.next) : (snapshotLoop h l).1.store r = h.store r := by
  induction l generalizing h with
  | nil => rfl
  | cons p rest ih =>
    obtain ⟨t, r0⟩ := p
    simp only [snapshotLoop]
    rw [ih (h.alloc (h.store r0)).1 (lt_trans hr (Nat.lt_succ_self _)),
      Heap.alloc_fst_store_ne _ _ _ (Nat.ne_of_lt hr)]

/-- Every reference produced by the snapshot loop is fresh: at or above
the old frontier and below the new one. -/
theorem snapshotLoop_snd_fresh (l : List (String × Ref)) (h : Heap) :
    ∀ p ∈ (snapshotLoop h l).2, h.next ≤ p.2 ∧ p.2 < (snapshotLoop h l).1.next := by
  induction l generalizing h with
  | nil => intro p hp; simp [snapshotLoop] at hp
  | cons q rest ih =>
    obtain ⟨t, r0⟩ := q
    intro p hp
    simp only [snapshotLoop, List.mem_cons] at hp
    rcases hp with hp | hp
    · subst hp
      refine ⟨le_refl _, ?_⟩
      simp only [snapshotLoop]
      exact lt_of_lt_of_le (Nat.lt_succ_self _)
        (snapshotLoop_fst_next_le rest (h.alloc (h.store r0)).1)
    · have := ih (h.alloc (h.store r0)).1 p hp
      simp only [snapshotLoop]
      exact ⟨le_trans (Nat.le_succ _) this.1, this.2⟩

/-- Two heaps agreeing on the referenced objects present the same view. -/
theorem viewIn_congr_store (h1 h2 : Heap) (l : List (String × Ref)) (t : String)
    (hs : ∀ p ∈ l, h1.store p.2 = h2.store p.2) :
    viewIn h1 l t = viewIn h2 l t := by
  unfold viewIn
  cases hf : lookupRef l t with
  | none => rfl
  | some r =>
    obtain ⟨p, hp, hpr⟩ := lookupRef_mem l t r hf
    rw [← hpr]
    exact hs p hp

/-- The snapshot loop presents, through the fresh references, exactly the
view the original references presented. -/
theorem snapshotLoop_view (l : List (String × Ref)) (h : Heap)
    (hb : ∀ p ∈ l, p.2 < h.next) (t : String) :
    viewIn (snapshotLoop h l).1 (snapshotLoop h l).2 t = viewIn h l t := by
  induction l generalizing h with
  | nil => rfl
  | cons q rest ih =>
    obtain ⟨t0, r0⟩ := q
    have hr0 : r0 < h.next := hb (t0, r0) (List.mem_cons_self _ _)
    have e1 : snapshotLoop h ((t0, r0) :: rest)
        = ((snapshotLoop (h.alloc (h.store r0)).1 rest).1,
           (t0, (h.alloc (h.store r0)).2) :: (snapshotLoop (h.alloc (h.store r0)).1 rest).2) :=
      rfl
    by_cases ht : t0 = t
    · rw [e1, viewIn_cons_pos _ _ _ _ _ ht, viewIn_cons_pos _ _ _ _ _ ht]
      rw [snapshotLoop_fst_store_lt rest (h.alloc (h.store r0)).1 (h.alloc (h.store r0)).2
        (Nat.lt_succ_self _)]
      exact Heap.alloc_fst_store_self h (h.store r0)
    · rw [e1, viewIn_cons_neg _ _ _ _ _ ht, viewIn_cons_neg _ _ _ _ _ ht]
      have hrest : ∀ p ∈ rest, p.2 < (h.alloc (h.store r0)).1.next := by
        intro p hp
        exact lt_trans (hb p (List.mem_cons_of_mem _ hp)) (Nat.lt_succ_self _)
      have h1 := ih (h.alloc (h.store r0)).1 hrest
      have hagree : ∀ p ∈ rest, (h.alloc (h.store r0)).1.store p.2 = h.store p.2 := by
        intro p hp
        exact Heap.alloc_fst_store_ne _ _ _ (Nat.ne_of_lt (hb p (List.mem_cons_of_mem _ hp)))
      have h2 := viewIn_congr_store (h.alloc (h.store r0)).1 h rest t hagree
      exact h1.trans h2

/-- Applying an event touches only references reachable from the live
room or freshly allocated. -/
theorem updateState_store_untouched (h : Heap) (room : RoomObj) (e : REvt) (r : Ref)
    (hout : ∀ p ∈ room.outer, p.2 ≠ r) (hnext : r ≠ h.next) :
    (updateState h room e).1.store r = h.store r := by
  cases hsk : e.state_key with
  | none => simp [updateState, hsk]
  | some sk =>
    cases hf : lookupRef room.outer e.type with
    | some r0 =>
      obtain ⟨p, hp, hpr⟩ := lookupRef_mem room.outer e.type r0 hf
      have hner : r ≠ r0 := fun hrr => hout p hp (hpr.trans hrr.symm)
      simp only [updateState, hsk, getOrCreateSub, hf]
      split
      · simp [Heap.write, hner]
      · simp [Heap.write, hner]
    | none =>
      simp only [updateState, hsk, getOrCreateSub, hf]
      split
      · simp [Heap.write, Heap.alloc, hnext]
      · simp [Heap.write, Heap.alloc, hnext]

/-- Applying a state event rewrites the view of its type by the popping
or storing dict operation, leaving the rest of the pipeline to reason on
views only. -/
theorem stateView_updateState (h : Heap) (room : RoomObj) (e : REvt) (sk : String)
    (he : e.state_key = some sk) :
    stateView (updateState h room e).1 (updateState h room e).2 e.type
      = if e.type = "m.room.member" ∧ contentMembership e.content = some Membership.leave
        then dictPop (stateView h room e.type) sk
        else dictInsert (stateView h room e.type) sk e := by
  cases hf : lookupRef room.outer e.type with
  | some r =>
    simp only [updateState, he, getOrCreateSub, hf]
    split
    · simp [stateView, viewIn, hf, Heap.write]
    · simp [stateView, viewIn, hf, Heap.write]
  | none =>
    have happ := lookupRef_append_right room.outer e.type h.next hf
    simp only [updateState, he, getOrCreateSub, hf]
    split
    · simp [stateView, viewIn, happ, hf, Heap.write, Heap.alloc]
    · simp [stateView, viewIn, happ, hf, Heap.write, Heap.alloc]

/-- C5: the store drops the entry of a member state event whose membership
is LEAVE and retains other membership events as the current entry: after
applying join then leave for key A the lookup of A is absent; after join
then ban the lookup returns the ban event; and in general a leave member
event deletes the (type, state key) entry while any other membership is
stored as the current entry. -/
theorem c5_apply_sequencing (h : Heap) (room : RoomObj) (A : String)
    (joinE leaveE banE : REvt)
    (_hjt : joinE.type = "m.room.member") (_hjk : joinE.state_key = some A)
    (_hjc : joinE.content = .member Membership.join)
    (hlt : leaveE.type = "m.room.member") (hlk : leaveE.state_key = some A)
    (hlc : leaveE.content = .member Membership.leave)
    (hbt : banE.type = "m.room.member") (hbk : banE.state_key = some A)
    (hbc : banE.content = .member Membership.ban) :
    findEvent (updateState (updateState h room joinE).1 (updateState h room joinE).2 leaveE).1
        (updateState (updateState h room joinE).1 (updateState h room joinE).2 leaveE).2
        "m.room.member" A = none ∧
    findEvent (updateState (updateState h room joinE).1 (updateState h room joinE).2 banE).1
        (updateState (updateState h room joinE).1 (updateState h room joinE).2 banE).2
        "m.room.member" A = some banE ∧
    (∀ (h2 : Heap) (room2 : RoomObj) (e : REvt) (k : String),
      e.type = "m.room.member" → e.state_key = some k →
      e.content = .member Membership.leave →
      findEvent (updateState h2 room2 e).1 (updateState h2 room2 e).2 "m.room.member" k
        = none) ∧
    (∀ (h2 : Heap) (room2 : RoomObj) (e : REvt) (k : String) (m : Membership),
      e.type = "m.room.member" → e.state_key = some k →
      e.content = .member m → m ≠ Membership.leave →
      findEvent (updateState h2 room2 e).1 (updateState h2 room2 e).2 "m.room.member" k
        = some e) := by
  have gen_leave : ∀ (h2 : Heap) (room2 : RoomObj) (e : REvt) (k : String),
      e.type = "m.room.member" → e.state_key = some k →
      e.content = .member Membership.leave →
      findEvent (updateState h2 room2 e).1 (updateState h2 room2 e).2 "m.room.member" k
        = none := by
    intro h2 room2 e k het hek hec
    have hs := stateView_updateState h2 room2 e k hek
    rw [het, hec] at hs
    simp [contentMembership] at hs
    show dictGet (stateView (updateState h2 room2 e).1 (updateState h2 room2 e).2
      "m.room.member") k = none
    rw [hs]
    exact dictGet_dictPop _ _
  have gen_keep : ∀ (h2 : Heap) (room2 : RoomObj) (e : REvt) (k : String) (m : Membership),
      e.type = "m.room.member" → e.state_key = some k →
      e.content = .member m → m ≠ Membership.leave →
      findEvent (updateState h2 room2 e).1 (updateState h2 room2 e).2 "m.room.member" k
        = some e := by
    intro h2 room2 e k m het hek hec hm
    have hs := stateView_updateState h2 room2 e k hek
    rw [het, hec] at hs
    simp [contentMembership, hm] at hs
    show dictGet (stateView (updateState h2 room2 e).1 (updateState h2 room2 e).2
      "m.room.member") k = some e
    rw [hs]
    exact dictGet_dictInsert _ _ _
  refine ⟨?_, ?_, gen_leave, gen_keep⟩
  · exact gen_leave _ _ leaveE A hlt hlk hlc
  · exact gen_keep _ _ banE A Membership.ban hbt hbk hbc (by decide)

/-- C5 witness: the join then leave sequence on the empty room, at a
concrete key, erases the member entry. -/
theorem c5_apply_sequencing_witness :
    joinEvtA.type = "m.room.member" ∧
    findEvent
      (updateState (updateState emptyHeap emptyRoom joinEvtA).1
        (updateState emptyHeap emptyRoom joinEvtA).2 leaveEvtA).1
      (updateState (updateState emptyHeap emptyRoom joinEvtA).1
        (updateState emptyHeap emptyRoom joinEvtA).2 leaveEvtA).2
      "m.room.member" "@alice:example.org" = none :=
  ⟨rfl, (c5_apply_sequencing emptyHeap emptyRoom "@alice:example.org" joinEvtA leaveEvtA banEvtA
      rfl rfl rfl rfl rfl rfl rfl rfl rfl).1⟩

/-- C6: a snapshot presents exactly the views of the room at snapshot
time, and applying any further event to the live room leaves every view
of the snapshot unchanged, because the snapshot holds fresh copies of the
inner mappings. -/
theorem c6_snapshot_isolation (h : Heap) (room : RoomObj) (e : REvt)
    (hb : roomRefsBounded h room) :
    (∀ t, stateView (snapshotRoom h room).1 (snapshotRoom h room).2 t = stateView h room t) ∧
    (∀ t, stateView (updateState (snapshotRoom h room).1 room e).1 (snapshotRoom h room).2 t
        = stateView (snapshotRoom h room).1 (snapshotRoom h room).2 t) := by
  constructor
  · intro t
    exact snapshotLoop_view room.outer h hb t
  · intro t
    refine viewIn_congr_store _ _ _ _ ?_
    intro p hp
    have hfresh := snapshotLoop_snd_fresh room.outer h p hp
    apply updateState_store_untouched
    · intro q hq
      exact Nat.ne_of_lt (lt_of_lt_of_le (hb q hq) hfresh.1)
    · exact Nat.ne_of_lt hfresh.2

/-- C6 witness: on a concrete room with one member mapping, applying a
leave event to the live room leaves the views of the snapshot unchanged. -/
theorem c6_snapshot_isolation_witness :
    roomRefsBounded heap0 room0 ∧
    (∀ t, stateView (updateState (snapshotRoom heap0 room0).1 room0 leaveEvtA).1
          (snapshotRoom heap0 room0).2 t
        = stateView (snapshotRoom heap0 room0).1 (snapshotRoom heap0 room0).2 t) :=
  ⟨by unfold roomRefsBounded; decide,
    (c6_snapshot_isolation heap0 room0 leaveEvtA (by unfold roomRefsBounded; decide)).2⟩

/-- The members iteration succeeds on well-typed member content and keeps
exactly the entries whose membership is JOIN, in order. -/
theorem joinedMembersList_eq (d : SubDict)
    (hwf : ∀ p ∈ d, (contentMembership p.2.content).isSome = true) :
    joinedMembersList d
      = .ok ((d.filter
          (fun p => contentMembership p.2.content == some Membership.join)).map Prod.snd) := by
  induction d with
  | nil => rfl
  | cons p rest ih =>
    have hh := hwf p (List.mem_cons_self _ _)
    obtain ⟨m, hm⟩ := Option.isSome_iff_exists.mp hh
    have ihh := ih (fun q hq => hwf q (List.mem_cons_of_mem _ hq))
    by_cases hmj : m = Membership.join
    · subst hmj
      simp [joinedMembersList, hm, ihh, List.filter_cons]
    · simp [joinedMembersList, hm, ihh, List.filter_cons, hmj]

/-- C10: the member lookup returns a member exactly when the stored
member entry for the id has membership JOIN (entries with other
memberships, which the store retains, give none), the lookup never
raises on well-typed member content, and the members iterator yields
exactly the JOIN entries. -/
theorem c10_member_join_only (h : Heap) (room : RoomObj)
    (hwf : ∀ p ∈ stateView h room "m.room.member",
      (contentMembership p.2.content).isSome = true) :
    (∀ id e, memberLookup h room id = .ok (some e) ↔
      (findEvent h room "m.room.member" id = some e ∧
        contentMembership e.content = some Membership.join)) ∧
    (∀ id, ∃ res, memberLookup h room id = .ok res) ∧
    joinedMembers h room
      = .ok (((stateView h room "m.room.member").filter
          (fun p => contentMembership p.2.content == some Membership.join)).map Prod.snd) := by
  refine ⟨?_, ?_, joinedMembersList_eq _ hwf⟩
  · intro id e
    constructor
    · intro hm
      cases hfind : findEvent h room "m.room.member" id with
      | none => simp [memberLookup, hfind] at hm
      | some e0 =>
        cases hc : contentMembership e0.content with
        | none => simp [memberLookup, hfind, hc] at hm
        | some m =>
          by_cases hmj : m = Membership.join
          · subst hmj
            simp [memberLookup, hfind, hc] at hm
            obtain rfl : e0 = e := by simpa using hm
            exact ⟨rfl, hc⟩
          · simp [memberLookup, hfind, hc, hmj] at hm
    · rintro ⟨hfind, hc⟩
      simp [memberLookup, hfind, hc]
  · intro id
    cases hfind : findEvent h room "m.room.member" id with
    | none => exact ⟨none, by simp [memberLookup, hfind]⟩
    | some e0 =>
      obtain ⟨p, hp, hpe⟩ := dictGet_mem (stateView h room "m.room.member") id e0 hfind
      have hps := hwf p hp
      rw [hpe] at hps
      obtain ⟨m, hm⟩ := Option.isSome_iff_exists.mp hps
      by_cases hmj : m = Membership.join
      · subst hmj
        exact ⟨some e0, by simp [memberLookup, hfind, hm]⟩
      · exact ⟨none, by simp [memberLookup, hfind, hm, hmj]⟩

/-- C10 witness: on a concrete room holding one join member entry, the
members iterator yields exactly that entry. -/
theorem c10_member_join_only_witness :
    (∀ p ∈ stateView heapJ room0 "m.room.member",
      (contentMembership p.2.content).isSome = true) ∧
    joinedMembers heapJ room0
      = .ok (((stateView heapJ room0 "m.room.member").filter
          (fun p => contentMembership p.2.content == some Membership.join)).map Prod.snd) :=
  ⟨by decide, (c10_member_join_only heapJ room0 (by decide)).2.2⟩

/-- Taking a positive number of elements preserves the head. -/
theorem head?_take_pos {α : Type} (l : List α) (n : Nat) (hn : 0 < n) :
    (l.take n).head? = l.head? := by
  cases n with
  | zero => exact absurd hn (lt_irrefl 0)
  | succ m => cases l <;> rfl

/-- Membership in a shorter take carries to a longer take. -/
theorem mem_take_of_le {α : Type} {a : α} {l : List α} {m n : Nat} (h : m ≤ n)
    (hm : a ∈ l.take m) : a ∈ l.take n := by
  have h2 : l.take m = (l.take n).take m := by
    rw [List.take_take, min_eq_left h]
  rw [h2] at hm
  exact List.mem_of_mem_take hm

/-- An element of a window of the list belongs to the take covering the
window. -/
theorem mem_take_of_mem_window {α : Type} {e : α} (l : List α) (a b : Nat)
    (he : e ∈ (l.drop a).take b) : e ∈ l.take (a + b) := by
  rw [List.take_add]
  exact List.mem_append_right _ he

/-- Scanning a chunk that holds no matching event accumulates the whole
chunk, reversed onto the deque. -/
theorem scanChunk_not_found (last : String) (c : List REvt) (acc : List REvt)
    (h : ∀ e ∈ c, e.event_id ≠ last) :
    scanChunk last c acc = .inr (c.reverse ++ acc) := by
  induction c generalizing acc with
  | nil => simp [scanChunk]
  | cons e rest ih =>
    simp only [scanChunk, if_neg (h e (List.mem_cons_self _ _))]
    rw [ih (e :: acc) (fun x hx => h x (List.mem_cons_of_mem _ hx))]
    simp

/-- Scanning a chunk whose first matching event sits at local index j
returns the j earlier events reversed onto the deque. -/
theorem scanChunk_found (last : String) (c : List REvt) (j : Nat) (et : REvt)
    (acc : List REvt)
    (hbefore : ∀ e ∈ c.take j, e.event_id ≠ last)
    (hj : (c.drop j).head? = some et)
    (hid : et.event_id = last) :
    scanChunk last c acc = .inl ((c.take j).reverse ++ acc) := by
  induction c generalizing j acc with
  | nil => rw [List.drop_nil] at hj; cases hj
  | cons e rest ih =>
    cases j with
    | zero =>
      have he : e = et := by simpa using hj
      subst he
      simp [scanChunk, hid]
    | succ j2 =>
      have hne : e.event_id ≠ last := by
        apply hbefore e
        simp [List.take_succ_cons]
      simp only [scanChunk, if_neg hne]
      rw [ih j2 (e :: acc)
        (fun x hx => hbefore x (by simpa [List.take_succ_cons] using Or.inr hx)) hj]
      simp [List.take_succ_cons, List.append_assoc]

/-- C1: evaluation of the backfill loop at the failing input. Against a
history that is exhausted (no matching event, no end token), the loop
never returns, whatever fuel it is given: the source logs the warning
about reaching the end of the timeline but re-enters the loop with the
unchanged token instead of returning, so recovery neither terminates nor
falls back to the already-available batch. -/
theorem c1_backfill_never_returns :
    ∀ (fuel : Nat) (acc : List REvt) (count : Nat),
      backfillLoop exhaustedHistory "$known" fuel () acc count = none := by
  intro fuel
  induction fuel with
  | zero => intro acc count; rfl
  | succ n ih => intro acc count; exact ih acc (count + 1)

/-- C4 counterexample: with the target id at depth 0 (the newest event of
the history is the last known one), recovery still performs one getEvents
call, whereas the claimed count is the ceiling of 0 over 50, which is 0. -/
theorem c4_counterexample :
    backfillRun (synthPages [targetEvt]) "$known" 1 0 = some ([], 1) ∧
    (0 + 50 - 1) / 50 = 0 ∧ (1 : Nat) ≠ (0 + 50 - 1) / 50 :=
  ⟨rfl, rfl, by decide⟩

/-- Generalized invariant of the backfill loop over the synthetic pages:
starting at page t with the target at depth k, the loop returns the
events strictly newer than the target that were not yet accumulated, in
forward order, after one call per remaining page. -/
theorem backfillLoop_synth (evs : List REvt) (last : String) (k : Nat) (et : REvt)
    (hbefore : ∀ e ∈ evs.take k, e.event_id ≠ last)
    (htarget : (evs.drop k).head? = some et)
    (hid : et.event_id = last) :
    ∀ (fuel t : Nat) (acc : List REvt) (count : Nat),
      50 * t ≤ k →
      (k - 50 * t) / 50 + 1 ≤ fuel →
      backfillLoop (synthPages evs) last fuel t acc count
        = some ((((evs.drop (50 * t)).take (k - 50 * t)).reverse) ++ acc,
            count + ((k - 50 * t) / 50 + 1)) := by
  intro fuel
  induction fuel with
  | zero =>
    intro t acc count h50 hfuel
    exact absurd hfuel (Nat.not_succ_le_zero _)
  | succ n ih =>
    intro t acc count h50 hfuel
    have hk : k < evs.length := by
      by_contra hkk
      push_neg at hkk
      rw [List.drop_eq_nil_of_le hkk] at htarget
      cases htarget
    by_cases hcase : k < 50 * t + 50
    · have hj50 : k - 50 * t < 50 := by omega
      have hb2 : ∀ e ∈ ((evs.drop (50 * t)).take 50).take (k - 50 * t),
          e.event_id ≠ last := by
        intro e he
        rw [List.take_take, min_eq_left (le_of_lt hj50)] at he
        apply hbefore e
        have := mem_take_of_mem_window evs (50 * t) (k - 50 * t) he
        have h3 : 50 * t + (k - 50 * t) = k := by omega
        rwa [h3] at this
      have hj2 : (((evs.drop (50 * t)).take 50).drop (k - 50 * t)).head? = some et := by
        rw [List.drop_take, head?_take_pos _ _ (by omega), List.drop_drop]
        have h3 : 50 * t + (k - 50 * t) = k := by omega
        rwa [h3]
      have hscan := scanChunk_found last ((evs.drop (50 * t)).take 50) (k - 50 * t) et acc
        hb2 hj2 hid
      simp only [backfillLoop, synthPages, hscan]
      rw [List.take_take, min_eq_left (le_of_lt hj50), Nat.div_eq_of_lt hj50]
    · have hfull : 50 * t + 50 ≤ k := by omega
      have hnt : ∀ e ∈ (evs.drop (50 * t)).take 50, e.event_id ≠ last := by
        intro e he
        apply hbefore e
        exact mem_take_of_le hfull (mem_take_of_mem_window evs (50 * t) 50 he)
      have hscan := scanChunk_not_found last ((evs.drop (50 * t)).take 50) acc hnt
      have hdivstep : (k - 50 * t) / 50 = (k - 50 * (t + 1)) / 50 + 1 := by
        have h3 : k - 50 * t = (k - 50 * (t + 1)) + 50 := by omega
        rw [h3, Nat.add_div_right _ (by norm_num)]
      have hlist : (evs.drop (50 * t)).take (k - 50 * t)
          = (evs.drop (50 * t)).take 50 ++ (evs.drop (50 * (t + 1))).take (k - 50 * (t + 1)) := by
        have h3 : k - 50 * t = 50 + (k - 50 * (t + 1)) := by omega
        rw [h3, List.take_add, List.drop_drop]
        have h4 : 50 * t + 50 = 50 * (t + 1) := by ring
        rw [h4]
      have hend : (50 * (t + 1) < evs.length) := by omega
      have hend2 : (if 50 * (t + 1) < evs.length then some (t + 1) else none) = some (t + 1) :=
        if_pos hend
      simp only [backfillLoop, synthPages, hscan, hend2]
      rw [ih (t + 1) (((evs.drop (50 * t)).take 50).reverse ++ acc) (count + 1)
        (by omega) (by omega)]
      have hlist2 : ((evs.drop (50 * (t + 1))).take (k - 50 * (t + 1))).reverse
            ++ (((evs.drop (50 * t)).take 50).reverse ++ acc)
          = ((evs.drop (50 * t)).take (k - 50 * t)).reverse ++ acc := by
        rw [hlist, List.reverse_append, List.append_assoc]
      have hcount2 : count + 1 + ((k - 50 * (t + 1)) / 50 + 1)
          = count + ((k - 50 * t) / 50 + 1) := by
        rw [hdivstep]
        omega
      rw [hlist2, hcount2]

/-- C4 amended: for every synthetic paginated history with the target id
at depth k (k newer events, newest first, pages of 50), gap recovery
returns exactly the k newer events in forward chronological order after
exactly the floor of k over 50, plus one, page fetches. As stated with
the ceiling of k over 50 the claim fails whenever 50 divides k; the page
holding the target is always fetched, costing one call even at depth 0. -/
theorem c4_backfill_depth (evs : List REvt) (last : String) (k : Nat) (et : REvt)
    (hbefore : ∀ e ∈ evs.take k, e.event_id ≠ last)
    (htarget : (evs.drop k).head? = some et)
    (hid : et.event_id = last)
    (fuel : Nat) (hfuel : k / 50 + 1 ≤ fuel) :
    backfillRun (synthPages evs) last fuel 0 = some ((evs.take k).reverse, k / 50 + 1) := by
  have h := backfillLoop_synth evs last k et hbefore htarget hid fuel 0 [] 0
    (by omega) (by simpa using hfuel)
  simpa [backfillRun] using h

/-- C4 witness: a two-page history with the target at depth 51 recovers
the 51 newer events in forward order with two fetches. -/
theorem c4_backfill_depth_witness :
    (∀ e ∈ historyC4.take 51, e.event_id ≠ "$known") ∧
    backfillRun (synthPages historyC4) "$known" 2 0
      = some ((historyC4.take 51).reverse, 51 / 50 + 1) :=
  ⟨by decide,
    c4_backfill_depth historyC4 "$known" 51 targetEvt (by decide) (by decide) rfl 2 (by decide)⟩

/-- C7: in a dispatch-loop step, an event is dropped entirely, with zero
handler invocations, exactly when it is insignificant and the limiter has
zero free slots; in every other case, in particular for every event not
flagged insignificant, the loop dispatches it to every matching handler,
the wildcard handlers followed by the handlers typed to its tag, awaiting
a limiter slot for each. -/
theorem c7_event_bus_shedding {H : Type} (available : Nat) (anyHandlers : List H)
    (typedHandlers : String → List H) (e : BusEvent) :
    (runLoopIteration available anyHandlers typedHandlers e = .dropped
      ↔ (e.insignificant = true ∧ available = 0)) ∧
    (∀ inv, runLoopIteration available anyHandlers typedHandlers e = .dispatched inv
      → inv = anyHandlers ++ typedHandlers e.tag) ∧
    (e.insignificant = false →
      runLoopIteration available anyHandlers typedHandlers e
        = .dispatched (anyHandlers ++ typedHandlers e.tag)) := by
  unfold runLoopIteration
  refine ⟨?_, ?_, ?_⟩
  · constructor
    · intro hd
      by_cases hc : e.insignificant = true ∧ available ≤ 0
      · exact ⟨hc.1, Nat.le_zero.mp hc.2⟩
      · rw [if_neg hc] at hd
        cases hd
    · rintro ⟨h1, h2⟩
      rw [if_pos ⟨h1, Nat.le_of_eq h2⟩]
  · intro inv hd
    by_cases hc : e.insignificant = true ∧ available ≤ 0
    · rw [if_pos hc] at hd
      cases hd
    · rw [if_neg hc] at hd
      cases hd
      rfl
  · intro hins
    rw [if_neg (fun hc => by rw [hins] at hc; cases hc.1)]

/-- C9: a handler exception is caught inside its own invocation and
logged; the wrapped invocation never propagates an error, and dispatching
an event runs one wrapped invocation per registered handler regardless of
any sibling failing. -/
theorem c9_handler_isolation (cbs : List (BusEvent → Except String Unit)) (event : BusEvent) :
    (dispatchHandlers cbs event).length = cbs.length ∧
    ∀ r ∈ dispatchHandlers cbs event, ∃ logged, r = .ok logged := by
  refine ⟨List.length_map _ _, ?_⟩
  intro r hr
  rw [dispatchHandlers, List.mem_map] at hr
  obtain ⟨cb, _hcb, hrr⟩ := hr
  cases hcall : cb event with
  | ok u => exact ⟨none, by rw [← hrr]; simp [run_event_safely, hcall]⟩
  | error ex => exact ⟨some ex, by rw [← hrr]; simp [run_event_safely, hcall]⟩

/-- Room registry lookup after item assignment: the assigned key maps to
the new room, other keys are unchanged. -/
theorem lookupRoom_insertRoom (l : List (Identifier × RoomObj)) (id : Identifier)
    (room : RoomObj) (id2 : Identifier) :
    lookupRoom (insertRoom l id room) id2
      = if id2 = id then some room else lookupRoom l id2 := by
  induction l with
  | nil =>
    by_cases h : id2 = id
    · simp [insertRoom, lookupRoom, h]
    · have h2 : ¬ (id = id2) := fun hh => h hh.symm
      simp [insertRoom, lookupRoom, h, h2]
  | cons p rest ih =>
    by_cases hp : p.1 = id
    · by_cases h : id2 = id
      · simp [insertRoom, lookupRoom, hp, h]
      · have hp2 : ¬ (id = id2) := fun hh => h hh.symm
        have hp3 : ¬ (p.1 = id2) := fun hh => hp2 (hp.symm.trans hh)
        simp only [insertRoom, lookupRoom] at ih ⊢
        rw [if_pos (by simpa using hp)]
        rw [List.find?_cons_of_neg _ (by simpa using hp2),
          List.find?_cons_of_neg _ (by simpa using hp3), if_neg h]
    · simp only [insertRoom, lookupRoom] at ih ⊢
      rw [if_neg (by simpa using hp)]
      by_cases h2 : p.1 = id2
      · rw [List.find?_cons_of_pos _ (by simpa using h2),
          List.find?_cons_of_pos _ (by simpa using h2)]
        have : ¬ id2 = id := fun hh => hp (h2.trans hh)
        rw [if_neg this]
      · rw [List.find?_cons_of_neg _ (by simpa using h2),
          List.find?_cons_of_neg _ (by simpa using h2)]
        exact ih

/-- Processing one joined room registers it, keeps every registered room
registered, and does not move the sync cursor. -/
theorem processJoinedRoom_ok (getEvents : String → MessagesPage String) (fuel : Nat)
    (st : ClientState) (rd : JoinedRoomData) (b : Bool) (st2 : ClientState)
    (evs : List SemEvent)
    (h : processJoinedRoom getEvents fuel st rd b = .ok (st2, evs)) :
    (lookupRoom st2.rooms rd.room_id).isSome = true ∧
    (∀ id2, (lookupRoom st.rooms id2).isSome = true
      → (lookupRoom st2.rooms id2).isSome = true) ∧
    st2.nextBatch = st.nextBatch := by
  simp only [processJoinedRoom] at h
  split at h
  · split at h
    · cases h
    · split at h
      · cases h
      · rename_i h2 room2 cached2 events heq
        cases h
        refine ⟨?_, ?_, rfl⟩
        · rw [lookupRoom_insertRoom, if_pos rfl]
          rfl
        · intro id2 hs
          rw [lookupRoom_insertRoom]
          by_cases hid : id2 = rd.room_id
          · rw [if_pos hid]; rfl
          · rw [if_neg hid]; exact hs
  · split at h
    · cases h
    · rename_i h2 room2 cached2 events heq
      cases h
      refine ⟨?_, ?_, rfl⟩
      · rw [lookupRoom_insertRoom, if_pos rfl]
        rfl
      · intro id2 hs
        rw [lookupRoom_insertRoom]
        by_cases hid : id2 = rd.room_id
        · rw [if_pos hid]; rfl
        · rw [if_neg hid]
          rw [lookupRoom_insertRoom]
          rw [if_neg hid]
          exact hs

/-- The per-room loop registers every room of the batch, preserves the
registry, and does not move the cursor. -/
theorem processRooms_ok (getEvents : String → MessagesPage String) (fuel : Nat) :
    ∀ (l : List JoinedRoomData) (st : ClientState) (b : Bool) (st2 : ClientState)
      (evs : List SemEvent),
      processRooms getEvents fuel st l b = .ok (st2, evs) →
      (∀ rd ∈ l, (lookupRoom st2.rooms rd.room_id).isSome = true) ∧
      (∀ id2, (lookupRoom st.rooms id2).isSome = true
        → (lookupRoom st2.rooms id2).isSome = true) ∧
      st2.nextBatch = st.nextBatch := by
  intro l
  induction l with
  | nil =>
    intro st b st2 evs h
    cases h
    exact ⟨fun rd hrd => absurd hrd (List.not_mem_nil rd), fun id2 hs => hs, rfl⟩
  | cons rd rest ih =>
    intro st b st2 evs h
    simp only [processRooms] at h
    cases heq1 : processJoinedRoom getEvents fuel st rd b with
    | error err => rw [heq1] at h; cases h
    | ok p1 =>
      obtain ⟨stm, evs1⟩ := p1
      rw [heq1] at h
      have h1 : (match processRooms getEvents fuel stm rest b with
          | .error err => (.error err : Except ProcErr (ClientState × List SemEvent))
          | .ok (st3, evs2) => .ok (st3, evs1 ++ evs2)) = .ok (st2, evs) := h
      cases heq2 : processRooms getEvents fuel stm rest b with
      | error err => rw [heq2] at h1; cases h1
      | ok p2 =>
        obtain ⟨st3, evs2⟩ := p2
        rw [heq2] at h1
        have h2 : (Except.ok (st3, evs1 ++ evs2)
            : Except ProcErr (ClientState × List SemEvent)) = .ok (st2, evs) := h1
        obtain ⟨hreg1, hpres1, hnb1⟩ := processJoinedRoom_ok getEvents fuel st rd b stm evs1 heq1
        obtain ⟨hreg2, hpres2, hnb2⟩ := ih stm b st3 evs2 heq2
        cases h2
        refine ⟨?_, ?_, hnb2.trans hnb1⟩
        · intro rd2 hrd2
          rcases List.mem_cons.mp hrd2 with hh | hh
          · subst hh
            exact hpres2 _ hreg1
          · exact hreg2 rd2 hh
        · intro id2 hs
          exact hpres2 id2 (hpres1 id2 hs)

/-- C8: a reconciliation pass with initialBatch true sends nothing to the
event channel (every computed semantic event, the me-joined events of new
rooms included, is discarded), while the registry gains every room of the
batch, already registered rooms stay registered, and the cursor advances
to the next-batch token of the response. -/
theorem c8_initial_batch_silent (getEvents : String → MessagesPage String) (fuel : Nat)
    (st : ClientState) (sd : SyncData) :
    match syncState getEvents fuel st sd true with
    | .error _ => True
    | .ok (st2, sent) =>
        sent = [] ∧ st2.nextBatch = some sd.next_batch ∧
        (∀ rd ∈ sd.joined, (lookupRoom st2.rooms rd.room_id).isSome = true) := by
  cases hp : processRooms getEvents fuel { st with nextBatch := some sd.next_batch }
      sd.joined true with
  | error err =>
    have hv : syncState getEvents fuel st sd true = .error err := by
      unfold syncState
      rw [hp]
    rw [hv]
    exact trivial
  | ok p =>
    obtain ⟨st2, events⟩ := p
    obtain ⟨hreg, _hpres, hnb⟩ := processRooms_ok getEvents fuel sd.joined
      { st with nextBatch := some sd.next_batch } true st2 events hp
    have hv : syncState getEvents fuel st sd true = .ok (st2, []) := by
      unfold syncState
      rw [hp]
      rfl
    rw [hv]
    exact ⟨rfl, hnb, hreg⟩

end Matriisi
